import Mathlib

/-!
Verification of the text-source evaluation engine of `spargel_lm`
(`src/spargel_lm/text_source.py`).

The embedding models Python strings as `List Char` (`Str`), the filesystem as
an abstract record `FS` (file contents are given as already decoded under the
configured encoding/compression, so `open`+`read` is one lookup), and the
`regex` library as an abstract record `RegexEngine` (the two entry points the
code uses: `regex.sub` and `Pattern.fullmatch`).  Because `ReferenceOperation`
chains can recurse through referenced files without bound and `repeat=true`
replacement loops can fail to reach a fixed point (both documented hazards of
the code), the interpreter takes a fuel parameter; fuel exhaustion (`Err.fuel`)
models those two divergences and nothing else.  Evaluation is eager where the
code is lazy: the order of produced strings is unchanged, and an exception is
modelled as an `Err` result replacing the whole output sequence.

Paths are modelled as lists of name components (absolute, `resolve`d); `"."`
segments are dropped when a relative path string is joined, as `pathlib` does.
`".."` segments do not occur in any statement below.
-/

namespace SpargelLM

/-- Python `str`, modelled as a list of characters. -/
abbrev Str := List Char

/-- A filesystem path, as a list of name components (after `Path.resolve()`). -/
abbrev FsPath := List Str

/-- The characters Python's `str.splitlines` treats as line boundaries
(`\n`, `\r`, `\v`, `\f`, FS, GS, RS, NEL, LINE SEPARATOR, PARAGRAPH
SEPARATOR); the two-character sequence `\r\n` is a single boundary and is
handled separately in `py_splitlines`. -/
def py_linebreaks : List Char :=
  ['\n', '\r', Char.ofNat 0x0B, Char.ofNat 0x0C, Char.ofNat 0x1C,
   Char.ofNat 0x1D, Char.ofNat 0x1E, Char.ofNat 0x85, Char.ofNat 0x2028,
   Char.ofNat 0x2029]

/-- Whether a character is a line boundary for `str.splitlines`. -/
def is_linebreak (c : Char) : Bool := py_linebreaks.contains c

/-- The whitespace characters stripped by `str.strip()` / `str.rstrip()` with
no argument (Python `str.isspace`). -/
def py_whitespace : List Char :=
  [' ', '\t', '\n', '\r', Char.ofNat 0x0B, Char.ofNat 0x0C, Char.ofNat 0x1C,
   Char.ofNat 0x1D, Char.ofNat 0x1E, Char.ofNat 0x1F, Char.ofNat 0x85,
   Char.ofNat 0xA0, Char.ofNat 0x1680, Char.ofNat 0x2000, Char.ofNat 0x2001,
   Char.ofNat 0x2002, Char.ofNat 0x2003, Char.ofNat 0x2004, Char.ofNat 0x2005,
   Char.ofNat 0x2006, Char.ofNat 0x2007, Char.ofNat 0x2008, Char.ofNat 0x2009,
   Char.ofNat 0x200A, Char.ofNat 0x2028, Char.ofNat 0x2029, Char.ofNat 0x202F,
   Char.ofNat 0x205F, Char.ofNat 0x3000]

/-- Python `str.isspace` on a single character. -/
def py_isspace (c : Char) : Bool := py_whitespace.contains c

/-- The character set stripped by `strip(chars)` / `rstrip(chars)`:
whitespace when `chars` is `None`, membership in `chars` otherwise. -/
def strip_pred (chars : Option Str) : Char → Bool :=
  fun c => match chars with
  | none => py_isspace c
  | some cs => cs.contains c

/-- Python `str.lstrip`: drop the longest prefix of characters in the set. -/
def py_lstrip (p : Char → Bool) (s : Str) : Str := s.dropWhile p

/-- Python `str.rstrip`: drop the longest suffix of characters in the set. -/
def py_rstrip (p : Char → Bool) (s : Str) : Str := s.rdropWhile p

/-- Python `str.strip`: drop from both ends. -/
def py_strip (p : Char → Bool) (s : Str) : Str := (s.dropWhile p).rdropWhile p

/-- Worker for `str.splitlines`: `acc` holds the current line, reversed.
A piece is emitted at each boundary (`\r\n` counts as one); with
`keep_ends = true` the boundary characters stay on the emitted piece.  The
final accumulator is emitted only when nonempty, so a trailing boundary does
not produce an extra empty line. -/
def py_splitlinesAux (keep_ends : Bool) (acc : Str) : Str → List Str
  | [] => if acc.isEmpty then [] else [acc.reverse]
  | '\r' :: '\n' :: rest =>
      (acc.reverse ++ if keep_ends then ['\r', '\n'] else [])
        :: py_splitlinesAux keep_ends [] rest
  | c :: rest =>
      if is_linebreak c then
        (acc.reverse ++ if keep_ends then [c] else [])
          :: py_splitlinesAux keep_ends [] rest
      else
        py_splitlinesAux keep_ends (c :: acc) rest

/-- Python `str.splitlines(keepends)`. -/
def py_splitlines (keep_ends : Bool) (s : Str) : List Str :=
  py_splitlinesAux keep_ends [] s

/-- Python `"\n".join(lines)`, as used by every `per_line` operation. -/
def joinLines : List Str → Str
  | [] => []
  | [l] => l
  | l :: ls => l ++ '\n' :: joinLines ls

/-- Worker for `str.replace`: scan left to right, replacing non-overlapping
occurrences of `old` (nonempty here).  The fuel starts at the scanned string's
length and is never exhausted before the scan ends, since every step consumes
at least one character. -/
def py_replaceGo (old new : Str) : Nat → Str → Str
  | 0, s => s
  | fuel + 1, s =>
      if old.isPrefixOf s then new ++ py_replaceGo old new fuel (s.drop old.length)
      else
        match s with
        | [] => []
        | c :: rest => c :: py_replaceGo old new fuel rest

/-- Python `str.replace(old, new)` (replace all occurrences).  An empty `old`
matches at every position, inserting `new` before each character and at the
end, exactly as CPython does. -/
def py_replace (old new : Str) (s : Str) : Str :=
  if old.isEmpty then new ++ s.flatMap (fun c => c :: new)
  else py_replaceGo old new s.length s

/-- The fixed-point loop of `ReplaceOperation._apply_replace` with
`repeat=true`: apply the substitution, stop when the result equals the
previous text, otherwise continue with the new text.  The loop in the code is
unbounded; `none` models running out of fuel, i.e. a rule that has not reached
a fixed point within `fuel` applications. -/
def applyReplaceRepeat (sub : Str → Str) : Nat → Str → Option Str
  | 0, _ => none
  | fuel + 1, last_text =>
      let text := sub last_text
      if text = last_text then some text
      else applyReplaceRepeat sub fuel text

/-- The two entry points of the `regex` library used by the code, kept
abstract: `sub old new text` is `regex.sub(old, new, text)` and
`fullmatch pat s` is whether `regex.compile(pat).fullmatch(s)` succeeds. -/
structure RegexEngine where
  sub : Str → Str → Str → Str
  fullmatch : Str → Str → Bool

/-- The operation tagged union (`type` discriminator in brackets):
`ReadFileOperation` [`read_file`], `ReferenceOperation` [`ref`],
`ReplaceOperation` [`replace`], `RightStripOperation` [`rstrip`],
`SplitLinesOperation` [`split_lines`], `StripOperation` [`strip`].
Field names follow the source; `rep` stands for the `repeat` flag and
`gzip_compression` for `compression == "gzip"`. -/
inductive Op where
  | readFile (base : Str) (encoding : Option Str) (gzip_compression : Bool)
  | ref (base : Str) (paths : List Str)
  | replace (regex : Bool) (old new : Str) (rep : Bool) (per_line : Bool)
  | rstrip (chars : Option Str) (per_line : Bool)
  | splitLines (keep_ends : Bool)
  | strip (chars : Option Str) (per_line : Bool)
  deriving DecidableEq

/-- The source tagged union: `FindFileSource` [`find`],
`PlainTextSource` [`text`], `ProcessSource` [`process`]. -/
inductive Source where
  | findFile (base : Str) (paths : List Str)
      (file_pattern dir_pattern : Option Str)
  | plainText (texts : List Str)
  | process (operations : List Op) (sources : List Source)

/-- A directory subtree as seen by `os.walk`: named subdirectories and the
names of the files in the directory itself. -/
inductive DirTree where
  | node (dirs : List (Str × DirTree)) (files : List Str)

/-- What `open(path).read()` produces for a path, with the configured
encoding/compression already taken into account: the file may be absent
(`open` raises `FileNotFoundError`), its bytes may fail to decode
(`read` raises `UnicodeDecodeError`), or it decodes to a string. -/
inductive ReadResult where
  | missing
  | decodeFailure
  | content (s : Str)
  deriving DecidableEq

/-- The filesystem, abstracted: `is_file` backs `Path.is_file()`, `read`
backs `open`/`gzip.open` + `read` in `ReadFileOperation`, `ops_file` gives
the validated operation list parsed from a referenced JSON file (`none` when
the file is absent and `open` raises), and `walk` gives the directory tree
`os.walk` sees under a path (empty for a missing directory, which `os.walk`
silently ignores). -/
structure FS where
  is_file : FsPath → Bool
  read : FsPath → ReadResult
  ops_file : FsPath → Option (List Op)
  walk : FsPath → DirTree

/-- `_resolve_parent`: the path itself if it is a directory, its parent if it
is a file. -/
def resolve_parent (fs : FS) (p : FsPath) : FsPath :=
  if fs.is_file p then p.dropLast else p

/-- Join a relative path string onto a resolved directory path, as
`pathlib`'s `/` does: split on `/`, drop empty and `"."` segments. -/
def splitRel (rel : Str) : List Str :=
  (List.splitOn '/' rel).filter (fun c => !(c.isEmpty || c == ['.']))

/-- The path read by `ReadFileOperation.process`:
`_resolve_parent(this_path) / base / text`. -/
def read_file_path (fs : FS) (base : Str) (this_path : FsPath) (text : Str) :
    FsPath :=
  resolve_parent fs this_path ++ splitRel base ++ splitRel text

/-- The path of a referenced operations file in `ReferenceOperation.process`:
`_resolve_parent(this_path) / base / path`. -/
def ref_file_path (fs : FS) (base : Str) (this_path : FsPath) (path : Str) :
    FsPath :=
  resolve_parent fs this_path ++ splitRel base ++ splitRel path

/-- Errors that abort an evaluation pass: an uncaught I/O exception at a
path, or exhaustion of the fuel that stands in for the two documented
nontermination hazards (reference cycles, never-converging repeat rules). -/
inductive Err where
  | io (p : FsPath)
  | fuel
  deriving DecidableEq

/-- Result of evaluating a generator to the end: the yielded strings plus the
paths warned about (`logger.warning` on decode failures), or the exception
that escaped. -/
inductive Res where
  | ok (outputs : List Str) (warnings : List FsPath)
  | err (e : Err)
  deriving DecidableEq

/-- Prefix warnings onto a result. -/
def prependWarn (w : List FsPath) : Res → Res
  | .ok os ws => .ok os (w ++ ws)
  | .err e => .err e

/-- Prefix outputs and warnings onto a result. -/
def accum (o : List Str) (w : List FsPath) : Res → Res
  | .ok os ws => .ok (o ++ os) (w ++ ws)
  | .err e => .err e

/-- Sequence two generator runs: an exception in the first aborts
everything after it. -/
def seqRes : Res → Res → Res
  | .err e, _ => .err e
  | .ok o w, r => accum o w r

/-- One operation applied to a whole batch, output lists concatenated in
input order (the `tmp.extend(operation.process(text, ...))` loops). -/
def process_batch (f : Str → Res) : List Str → Res
  | [] => .ok [] []
  | t :: ts => seqRes (f t) (process_batch f ts)

/-- An operation chain applied to a batch: the batch produced by operation
`k` is the full input batch to operation `k + 1` (the
`for operation in operations` loop shared by `ProcessSource.get_texts` and
`ReferenceOperation.process`). -/
def process_chain (f : Op → Str → Res) : List Op → List Str → Res
  | [], texts => .ok texts []
  | op :: ops, texts =>
      match process_batch (f op) texts with
      | .err e => .err e
      | .ok tmp w => prependWarn w (process_chain f ops tmp)

/-- The `for path in self.paths` loop of `ReferenceOperation.process`:
each referenced file's operation list is applied to the running batch with
`this_path` set to the referenced file's path (`ref_path`), so nested
path-relative operations resolve against the referenced file's directory.
`dir_path` is `_resolve_parent(this_path)` of the caller, which does not
change across iterations. -/
def process_ref_paths (fs : FS) (f : Op → Str → FsPath → Res)
    (dir_path : FsPath) (base : Str) : List Str → List Str → Res
  | [], texts => .ok texts []
  | path :: rest, texts =>
      let ref_path := dir_path ++ splitRel base ++ splitRel path
      match fs.ops_file ref_path with
      | none => .err (.io ref_path)
      | some ops =>
          match process_chain (fun op t => f op t ref_path) ops texts with
          | .err e => .err e
          | .ok texts' w => prependWarn w (process_ref_paths fs f dir_path base rest texts')

/-- Apply a possibly fuel-limited line transform to every line. -/
def mapLines (f : Str → Option Str) : List Str → Option (List Str)
  | [] => some []
  | l :: ls =>
      match f l, mapLines f ls with
      | some r, some rs => some (r :: rs)
      | _, _ => none

/-- `Operation.process(text, this_path)`: one input string to a sequence of
output strings (plus warnings), or an escaped exception.  Fuel is consumed
when a `ReferenceOperation` dereferences a file, and bounds `repeat=true`
replacement loops; all other cases ignore it. -/
def process_op (re : RegexEngine) (fs : FS) (fuel : Nat) (op : Op)
    (text : Str) (this_path : FsPath) : Res :=
  match op with
  | .readFile base _encoding _gzip_compression =>
      let path := read_file_path fs base this_path text
      match fs.read path with
      | .missing => .err (.io path)
      | .decodeFailure => .ok [] [path]
      | .content s => .ok [s] []
  | .ref base paths =>
      match fuel with
      | 0 => .err .fuel
      | fuel' + 1 =>
          process_ref_paths fs (process_op re fs fuel')
            (resolve_parent fs this_path) base paths [text]
  | .replace regexF old new rep per_line =>
      let sub : Str → Str :=
        fun t => if regexF then re.sub old new t else py_replace old new t
      let applyOne : Str → Option Str :=
        fun t => if rep then applyReplaceRepeat sub fuel t else some (sub t)
      if per_line then
        match mapLines applyOne (py_splitlines false text) with
        | some ls => .ok [joinLines ls] []
        | none => .err .fuel
      else
        match applyOne text with
        | some r => .ok [r] []
        | none => .err .fuel
  | .rstrip chars per_line =>
      if per_line then
        .ok [joinLines ((py_splitlines false text).map
          (py_rstrip (strip_pred chars)))] []
      else .ok [py_rstrip (strip_pred chars) text] []
  | .splitLines keep_ends => .ok (py_splitlines keep_ends text) []
  | .strip chars per_line =>
      if per_line then
        .ok [joinLines ((py_splitlines false text).map
          (py_strip (strip_pred chars)))] []
      else .ok [py_strip (strip_pred chars) text] []

/-- Whether a subdirectory name survives the pruning step
`dirs[:] = [d for d in dirs if dir_pattern.fullmatch(d)]` (everything
survives when there is no `dir_pattern`). -/
def keep_dir (dir_pattern : Option (Str → Bool)) (d : Str) : Bool :=
  match dir_pattern with
  | none => true
  | some pat => pat d

/-- Whether a file name passes
`if file_pattern is not None and not file_pattern.fullmatch(file): continue`. -/
def keep_file (file_pattern : Option (Str → Bool)) (f : Str) : Bool :=
  match file_pattern with
  | none => true
  | some pat => pat f

/-- `FindFileSource._search_dir` and the `os.walk` loop: at each directory,
subdirectories whose name does not fully match `dir_pattern` are removed from
`dirs` before descending, then the files of the current directory that fully
match `file_pattern` are yielded, then kept subdirectories are walked in
order. -/
def search_dir (dir_pattern file_pattern : Option (Str → Bool)) :
    FsPath → DirTree → List FsPath
  | p, .node dirs files =>
      (files.filter (keep_file file_pattern)).map (fun f => p ++ [f])
        ++ search_dirs dirs p
  where
    /-- Walk the kept subdirectories in order. -/
    search_dirs : List (Str × DirTree) → FsPath → List FsPath
      | [], _ => []
      | (d, t) :: rest, p =>
          (if keep_dir dir_pattern d then
            search_dir dir_pattern file_pattern (p ++ [d]) t
          else []) ++ search_dirs rest p

/-- `str(p)` on a resolved absolute path. -/
def renderPath (p : FsPath) : Str :=
  '/' :: List.intercalate ['/'] p

/-- `ProcessSource`'s inner loops: each text yielded by a child source is
passed on its own through the whole operation chain, and the final batch is
yielded before the next input text is taken. -/
def process_texts (re : RegexEngine) (fs : FS) (fuel : Nat)
    (ops : List Op) : List Str → FsPath → Res
  | [], _ => .ok [] []
  | t :: ts, p =>
      seqRes (process_chain (fun op u => process_op re fs fuel op u p) ops [t])
        (process_texts re fs fuel ops ts p)

mutual

/-- `TextSourceModel.get_texts(this_path)` for each source variant. -/
def get_texts (re : RegexEngine) (fs : FS) (fuel : Nat) :
    Source → FsPath → Res
  | .plainText texts, _ => .ok texts []
  | .findFile base paths file_pattern dir_pattern, this_path =>
      let base_path := resolve_parent fs this_path ++ splitRel base
      .ok ((paths.flatMap (fun path =>
          search_dir (dir_pattern.map re.fullmatch)
            (file_pattern.map re.fullmatch)
            (base_path ++ splitRel path)
            (fs.walk (base_path ++ splitRel path)))).map renderPath) []
  | .process operations sources, this_path =>
      process_sources re fs fuel operations sources this_path

/-- The `for source in self.sources` loop of `ProcessSource.get_texts`: each
child source's texts are fully processed before the next child source. -/
def process_sources (re : RegexEngine) (fs : FS) (fuel : Nat)
    (ops : List Op) : List Source → FsPath → Res
  | [], _ => .ok [] []
  | s :: ss, p =>
      match get_texts re fs fuel s p with
      | .err e => .err e
      | .ok ts w =>
          prependWarn w (seqRes (process_texts re fs fuel ops ts p)
            (process_sources re fs fuel ops ss p))

end

/-! Operational trace of `ReadFileOperation.process` (lines 132–146), for the
file-handle lifecycle.  The generator's body is
`f = open(...)`; `yield f.read()`; `f.close()` inside a
`try ... except UnicodeDecodeError: logger.warning(...)`. -/

/-- Events of one `ReadFileOperation.process` invocation, in execution
order: `open` succeeded / raised, `f.read()` succeeded / raised
`UnicodeDecodeError`, a value was yielded, `f.close()` ran, a warning was
logged. -/
inductive FileEvent where
  | openHandle
  | openRaised
  | readOk
  | readFailed
  | yieldText (s : Str)
  | closeHandle
  | warn
  deriving DecidableEq

/-- The event trace of `ReadFileOperation.process` run to completion, per
read outcome.  On success the handle is opened, read, the content yielded,
and only then (when the consumer pulls again) closed.  On a decode failure
the `except` clause logs a warning; the `f.close()` statement is never
reached.  On a missing file `open` raises and nothing is caught. -/
def readFileEvents : ReadResult → List FileEvent
  | .missing => [.openRaised]
  | .decodeFailure => [.openHandle, .readFailed, .warn]
  | .content s => [.openHandle, .readOk, .yieldText s, .closeHandle]

/-- Whether a close event occurs strictly before the first yield: the first
of {`closeHandle`, `yieldText`} in the trace decides (vacuously true with no
yield). -/
def closeBeforeYield : List FileEvent → Bool
  | [] => true
  | .closeHandle :: _ => true
  | .yieldText _ :: _ => false
  | _ :: rest => closeBeforeYield rest

/-! Spec-side characterisation of the `per_line` rebuild, for comparison with
`joinLines ∘ py_splitlines false`. -/

/-- Modelled from the spec: "every line terminator in the input (`\r\n`,
`\r`, and other recognized terminators) is replaced by `\n`" — rewrite each
line boundary (with `\r\n` as a single boundary) to `\n`. -/
def spec_replace_terminators : Str → Str
  | [] => []
  | '\r' :: '\n' :: rest => '\n' :: spec_replace_terminators rest
  | c :: rest =>
      (if is_linebreak c then '\n' else c) :: spec_replace_terminators rest

/-- Modelled from the spec: "a trailing terminator is removed" — drop one
final `\n` (after `spec_replace_terminators` every terminator is `\n`). -/
def dropTrailingNewline : Str → Str
  | [] => []
  | ['\n'] => []
  | c :: rest => c :: dropTrailingNewline rest

/-- Whether a string ends with a line boundary character. -/
def ends_with_break (s : Str) : Bool :=
  match s.getLast? with
  | none => false
  | some c => is_linebreak c

/-! Concrete fixtures used by witnesses and counterexamples. -/

/-- A trivial regex engine: substitution is the identity, every pattern
matches.  Used only to instantiate theorems whose content does not depend on
the regex engine. -/
def reTriv : RegexEngine := ⟨fun _ _ t => t, fun _ _ => true⟩

/-- An empty filesystem. -/
def fsEmpty : FS :=
  ⟨fun _ => false, fun _ => .missing, fun _ => none, fun _ => .node [] []⟩

/-- A filesystem with one file of undecodable bytes and one good file, for
the error-handling witnesses. -/
def fsC4 : FS where
  is_file := fun _ => false
  read := fun p =>
    if p = ["bad.txt".toList] then .decodeFailure
    else if p = ["good.txt".toList] then .content ("G".toList)
    else .missing
  ops_file := fun _ => none
  walk := fun _ => .node [] []

/-- A filesystem for the reference-rebinding scenarios: the caller's config
file is `/main/cfg.json`; `/main/sub/ops.json` holds a `ReadFileOperation`
chain; `/main/data.txt` and `/main/sub/data.txt` both exist with different
contents; `/main/sub/refdeep.json` holds a nested `ReferenceOperation` to
`deep/ops2.json`, which reads relative to `/main/sub/deep`. -/
def fsC5 : FS where
  is_file := fun p =>
    p = ["main".toList, "cfg.json".toList]
      || p = ["main".toList, "sub".toList, "ops.json".toList]
      || p = ["main".toList, "sub".toList, "refdeep.json".toList]
      || p = ["main".toList, "sub".toList, "deep".toList, "ops2.json".toList]
  read := fun p =>
    if p = ["main".toList, "data.txt".toList] then .content ("MAIN".toList)
    else if p = ["main".toList, "sub".toList, "data.txt".toList] then
      .content ("SUB".toList)
    else if p = ["main".toList, "sub".toList, "deep".toList, "d.txt".toList] then
      .content ("DEEP".toList)
    else .missing
  ops_file := fun p =>
    if p = ["main".toList, "sub".toList, "ops.json".toList] then
      some [.readFile (".".toList) none false]
    else if p = ["main".toList, "sub".toList, "refdeep.json".toList] then
      some [.ref (".".toList) ["deep/ops2.json".toList]]
    else if p = ["main".toList, "sub".toList, "deep".toList, "ops2.json".toList] then
      some [.readFile (".".toList) none false]
    else none
  walk := fun _ => .node [] []

/-- The directory tree of the pruning scenario: a subdirectory `skip`
containing `keep.txt`, and a top-level file `top.txt`. -/
def treeC6 : DirTree :=
  .node [("skip".toList, .node [] ["keep.txt".toList])] ["top.txt".toList]

/-! ## Theorems -/

/-- C2, counterexample.  On the normal-completion path the handle is closed
only *after* the single result is yielded (`yield f.read()` precedes
`f.close()`), and on the decode-failure path no close event occurs at all —
so the claim that the handle is released before the yield, on both paths, is
false. -/
theorem read_file_handle_release_counterexample :
    closeBeforeYield (readFileEvents (.content ("hello".toList))) = false
      ∧ (readFileEvents .decodeFailure).contains .closeHandle = false := by
  decide

/-- C2, amended.  For every `ReadFileOperation` invocation the handle is
acquired and the file fully read before the operation yields its single
result; on normal completion the handle is released after the yield (when
the generator is resumed), and on the decode-failure path the handle is not
explicitly released — only a warning is recorded. -/
theorem read_file_handle_release_order :
    ∀ s : Str,
      readFileEvents (.content s)
          = [.openHandle, .readOk, .yieldText s, .closeHandle]
        ∧ readFileEvents .decodeFailure = [.openHandle, .readFailed, .warn] :=
  fun _ => ⟨rfl, rfl⟩

/-- Fuel monotonicity of the repeat-replace loop: once the loop has
converged under some fuel, more fuel gives the same answer. -/
theorem applyReplaceRepeat_mono (sub : Str → Str) :
    ∀ n m t r, applyReplaceRepeat sub n t = some r → n ≤ m →
      applyReplaceRepeat sub m t = some r := by
  intro n
  induction n with
  | zero => intro m t r h; simp [applyReplaceRepeat] at h
  | succ n ih =>
      intro m t r h hnm
      match m, hnm with
      | m + 1, hnm =>
        rw [applyReplaceRepeat] at h ⊢
        by_cases hfix : sub t = t
        · simpa [hfix] using h
        · simp only [hfix, if_neg] at h ⊢
          exact ih m (sub t) r h (Nat.le_of_succ_le_succ hnm)

/-- The value returned by the repeat-replace loop is a fixed point of the
substitution. -/
theorem applyReplaceRepeat_fix (sub : Str → Str) :
    ∀ fuel t r, applyReplaceRepeat sub fuel t = some r → sub r = r := by
  intro fuel
  induction fuel with
  | zero => intro t r h; simp [applyReplaceRepeat] at h
  | succ n ih =>
      intro t r h
      rw [applyReplaceRepeat] at h
      by_cases hfix : sub t = t
      · simp only [hfix, if_pos, Option.some.injEq] at h
        subst h; rw [hfix]
      · simp only [hfix, if_neg] at h
        exact ih (sub t) r h

/-- A strictly-contracting substitution reaches its fixed point within
`length + 1` loop iterations. -/
theorem applyReplaceRepeat_terminates (sub : Str → Str)
    (hc : ∀ s, sub s ≠ s → (sub s).length < s.length) :
    ∀ t, ∃ r, applyReplaceRepeat sub (t.length + 1) t = some r := by
  have H : ∀ n, ∀ t : Str, t.length < n →
      ∃ r, applyReplaceRepeat sub (t.length + 1) t = some r := by
    intro n
    induction n with
    | zero => exact fun t h => absurd h (Nat.not_lt_zero _)
    | succ n ih =>
        intro t ht
        rw [applyReplaceRepeat]
        by_cases hfix : sub t = t
        · exact ⟨sub t, by simp [hfix]⟩
        · have hlt := hc t hfix
          obtain ⟨r, hr⟩ := ih (sub t) (by omega)
          refine ⟨r, ?_⟩
          simp only [hfix, if_neg]
          exact applyReplaceRepeat_mono sub _ _ _ r hr (by omega)
  exact fun t => H (t.length + 1) t (Nat.lt_succ_self _)

/-- C3.  With `repeat=true`, `_apply_replace` stops exactly when one more
substitution leaves the text unchanged (exact string equality): the loop
step is literally "apply once, stop if equal, else continue", the returned
text is a fixed point of the substitution, the concrete example
`ReplaceOperation(old="aa", new="a", repeat=true)` on `"aaaa"` yields `"a"`,
and for any substitution that strictly shortens every string it changes the
loop terminates within `length + 1` iterations. -/
theorem replace_repeat_fixed_point :
    process_op reTriv fsEmpty 4
        (.replace false ("aa".toList) ("a".toList) true false)
        ("aaaa".toList) [] = .ok ["a".toList] []
      ∧ (∀ (sub : Str → Str) fuel t,
          applyReplaceRepeat sub (fuel + 1) t
            = if sub t = t then some (sub t)
              else applyReplaceRepeat sub fuel (sub t))
      ∧ (∀ (sub : Str → Str) fuel t r,
          applyReplaceRepeat sub fuel t = some r → sub r = r)
      ∧ (∀ (sub : Str → Str), (∀ s, sub s ≠ s → (sub s).length < s.length) →
          ∀ t, ∃ r, applyReplaceRepeat sub (t.length + 1) t = some r) := by
  refine ⟨by decide, fun sub fuel t => rfl, applyReplaceRepeat_fix,
    applyReplaceRepeat_terminates⟩

/-- C3, witness: the fixed-point and termination parts applied at a concrete
substitution (drop everything) and input. -/
theorem replace_repeat_fixed_point_witness :
    (∃ r, applyReplaceRepeat (fun _ => ([] : Str))
        (("ab".toList).length + 1) ("ab".toList) = some r)
      ∧ (fun _ => ([] : Str)) ([] : Str) = ([] : Str) := by
  refine ⟨replace_repeat_fixed_point.2.2.2 (fun _ => ([] : Str)) ?_ ("ab".toList),
    replace_repeat_fixed_point.2.2.1 (fun _ => ([] : Str)) 1 [] [] (by decide)⟩
  intro s h
  match s with
  | [] => exact absurd rfl h
  | c :: rest => simp

/-- C1.  `ProcessSource.get_texts` processes child sources in listed order,
passing each text a child yields through the whole operation chain before the
next input text: (i) the batch produced by operation `k` is the full input
batch to operation `k + 1`; (ii) the outputs of one input text are emitted in
full before the next input text is processed; (iii) when each input text's
chain run succeeds with outputs `outs t`, the overall output is exactly
`texts.flatMap outs` — outputs of different input texts never interleave;
(iv) child sources are processed strictly one after another; (v)
`get_texts` on a `ProcessSource` is this very loop. -/
theorem process_source_chain_order :
    (∀ re fs fuel op ops texts p tmp w,
        process_batch (fun t => process_op re fs fuel op t p) texts = .ok tmp w →
        process_chain (fun o t => process_op re fs fuel o t p) (op :: ops) texts
          = prependWarn w
              (process_chain (fun o t => process_op re fs fuel o t p) ops tmp))
      ∧ (∀ re fs fuel ops t ts p o w,
          process_chain (fun op u => process_op re fs fuel op u p) ops [t]
              = .ok o w →
          process_texts re fs fuel ops (t :: ts) p
            = accum o w (process_texts re fs fuel ops ts p))
      ∧ (∀ re fs fuel ops texts p (outs : Str → List Str),
          (∀ t ∈ texts,
            process_chain (fun op u => process_op re fs fuel op u p) ops [t]
              = .ok (outs t) []) →
          process_texts re fs fuel ops texts p = .ok (texts.flatMap outs) [])
      ∧ (∀ re fs fuel ops s ss p ts w,
          get_texts re fs fuel s p = .ok ts w →
          process_sources re fs fuel ops (s :: ss) p
            = prependWarn w (seqRes (process_texts re fs fuel ops ts p)
                (process_sources re fs fuel ops ss p)))
      ∧ (∀ re fs fuel ops srcs p,
          get_texts re fs fuel (.process ops srcs) p
            = process_sources re fs fuel ops srcs p) := by
  refine ⟨?_, ?_, ?_, ?_, ?_⟩
  · intro re fs fuel op ops texts p tmp w h
    simp [process_chain, h]
  · intro re fs fuel ops t ts p o w h
    simp [process_texts, h, seqRes]
  · intro re fs fuel ops texts p outs h
    induction texts with
    | nil => simp [process_texts]
    | cons t ts ih =>
        have ht := h t (by simp)
        have hts := ih (fun u hu => h u (by simp [hu]))
        simp [process_texts, ht, hts, seqRes, accum]
  · intro re fs fuel ops s ss p ts w h
    simp [process_sources, h]
  · intro re fs fuel ops srcs p
    simp [get_texts]

/-- C1, witness: the no-interleaving part at a concrete two-text batch
through a one-operation chain. -/
theorem process_source_chain_order_witness :
    process_texts reTriv fsEmpty 0 [.strip none false]
        ["  a  ".toList, " b ".toList] []
      = .ok ["a".toList, "b".toList] [] := by
  have h := process_source_chain_order.2.2.1 reTriv fsEmpty 0
    [.strip none false] ["  a  ".toList, " b ".toList] []
    (fun t => [py_strip (strip_pred none) t]) (by decide)
  exact h.trans (by decide)

/-- C4.  `ReadFileOperation` recovers a decode error locally: the offending
file contributes zero output strings, a warning is recorded, and a
surrounding batch continues with the next item.  A missing file is not
caught: the operation's result is a fatal I/O error, and a batch containing
it aborts wholesale with that error. -/
theorem read_file_error_handling :
    (∀ re fs fuel base enc gz t p,
        fs.read (read_file_path fs base p t) = .decodeFailure →
        process_op re fs fuel (.readFile base enc gz) t p
          = .ok [] [read_file_path fs base p t])
      ∧ (∀ re fs fuel base enc gz t p,
          fs.read (read_file_path fs base p t) = .missing →
          process_op re fs fuel (.readFile base enc gz) t p
            = .err (.io (read_file_path fs base p t)))
      ∧ (∀ re fs fuel base enc gz t ts p,
          fs.read (read_file_path fs base p t) = .decodeFailure →
          process_batch (fun u => process_op re fs fuel (.readFile base enc gz) u p)
              (t :: ts)
            = prependWarn [read_file_path fs base p t]
                (process_batch
                  (fun u => process_op re fs fuel (.readFile base enc gz) u p) ts))
      ∧ (∀ re fs fuel base enc gz t ts p,
          fs.read (read_file_path fs base p t) = .missing →
          process_batch (fun u => process_op re fs fuel (.readFile base enc gz) u p)
              (t :: ts)
            = .err (.io (read_file_path fs base p t))) := by
  have ha : ∀ (re : RegexEngine) (fs : FS) fuel base enc gz t p,
      fs.read (read_file_path fs base p t) = .decodeFailure →
      process_op re fs fuel (.readFile base enc gz) t p
        = .ok [] [read_file_path fs base p t] := by
    intro re fs fuel base enc gz t p h
    simp [process_op, h]
  have hb : ∀ (re : RegexEngine) (fs : FS) fuel base enc gz t p,
      fs.read (read_file_path fs base p t) = .missing →
      process_op re fs fuel (.readFile base enc gz) t p
        = .err (.io (read_file_path fs base p t)) := by
    intro re fs fuel base enc gz t p h
    simp [process_op, h]
  refine ⟨ha, hb, ?_, ?_⟩
  · intro re fs fuel base enc gz t ts p h
    rw [process_batch, ha re fs fuel base enc gz t p h]
    cases hts : process_batch
        (fun u => process_op re fs fuel (.readFile base enc gz) u p) ts with
    | ok os ws => simp [seqRes, accum, prependWarn]
    | err e => simp [seqRes, accum, prependWarn]
  · intro re fs fuel base enc gz t ts p h
    rw [process_batch, hb re fs fuel base enc gz t p h]
    rfl

/-- C4, witness: on a filesystem with an undecodable `bad.txt`, a readable
`good.txt` and no `nope.txt`, the decode failure yields zero outputs plus a
warning and the batch continues to `good.txt`, while the missing file aborts
with an I/O error. -/
theorem read_file_error_handling_witness :
    process_op reTriv fsC4 0 (.readFile (".".toList) none false)
        ("bad.txt".toList) [] = .ok [] [["bad.txt".toList]]
      ∧ process_batch
          (fun u => process_op reTriv fsC4 0 (.readFile (".".toList) none false) u [])
          ["bad.txt".toList, "good.txt".toList]
        = .ok ["G".toList] [["bad.txt".toList]]
      ∧ process_op reTriv fsC4 0 (.readFile (".".toList) none false)
          ("nope.txt".toList) [] = .err (.io ["nope.txt".toList]) := by
  refine ⟨?_, ?_, ?_⟩
  · exact (read_file_error_handling.1 reTriv fsC4 0 (".".toList) none false
      ("bad.txt".toList) [] (by decide)).trans (by decide)
  · exact (read_file_error_handling.2.2.1 reTriv fsC4 0 (".".toList) none false
      ("bad.txt".toList) ["good.txt".toList] [] (by decide)).trans (by decide)
  · exact (read_file_error_handling.2.1 reTriv fsC4 0 (".".toList) none false
      ("nope.txt".toList) [] (by decide)).trans (by decide)

/-- C5.  A `ReferenceOperation` applies the chain loaded from each referenced
file with `this_path` set to the referenced file's path, so every
path-relative operation in that chain resolves against the referenced file's
directory (its parent, since the referenced path names a file), not the
caller's context directory: (i) dereferencing enters `process_ref_paths`
with the caller's directory fixed; (ii) the loaded chain runs at
`ref_file_path`; (iii) a path-relative `ReadFileOperation` running at a file
path resolves against that file's parent directory; (iv) concretely, a chain
loaded from `sub/ops.json` reads `data.txt` as `/main/sub/data.txt` (not the
caller's `/main/data.txt`); (v) the rebinding applies transitively through a
nested reference `sub/refdeep.json → deep/ops2.json`. -/
theorem reference_path_rebinding :
    (∀ re fs fuel base paths text this_path,
        process_op re fs (fuel + 1) (.ref base paths) text this_path
          = process_ref_paths fs (process_op re fs fuel)
              (resolve_parent fs this_path) base paths [text])
      ∧ (∀ re fs fuel base path rest texts this_path ops,
          fs.ops_file (ref_file_path fs base this_path path) = some ops →
          process_ref_paths fs (process_op re fs fuel)
              (resolve_parent fs this_path) base (path :: rest) texts
            = match process_chain
                  (fun op t => process_op re fs fuel op t
                    (ref_file_path fs base this_path path)) ops texts with
              | .err e => .err e
              | .ok texts' w =>
                  prependWarn w (process_ref_paths fs (process_op re fs fuel)
                    (resolve_parent fs this_path) base rest texts'))
      ∧ (∀ fs base q t, fs.is_file q = true →
          read_file_path fs base q t = q.dropLast ++ splitRel base ++ splitRel t)
      ∧ process_op reTriv fsC5 2 (.ref (".".toList) ["sub/ops.json".toList])
          ("data.txt".toList) ["main".toList, "cfg.json".toList]
          = .ok ["SUB".toList] []
      ∧ process_op reTriv fsC5 3 (.ref (".".toList) ["sub/refdeep.json".toList])
          ("d.txt".toList) ["main".toList, "cfg.json".toList]
          = .ok ["DEEP".toList] [] := by
  refine ⟨fun re fs fuel base paths text this_path => rfl, ?_, ?_, by decide,
    by decide⟩
  · intro re fs fuel base path rest texts this_path ops h
    simp only [ref_file_path, List.append_assoc] at h
    simp [process_ref_paths, ref_file_path, h]
  · intro fs base q t h
    simp [read_file_path, resolve_parent, h]

/-- C5, witness: the loop-step and directory-resolution parts at the
concrete `sub/ops.json` scenario. -/
theorem reference_path_rebinding_witness :
    process_ref_paths fsC5 (process_op reTriv fsC5 1)
        (resolve_parent fsC5 ["main".toList, "cfg.json".toList]) (".".toList)
        ["sub/ops.json".toList] ["data.txt".toList]
      = .ok ["SUB".toList] []
      ∧ read_file_path fsC5 (".".toList)
          ["main".toList, "sub".toList, "ops.json".toList] ("data.txt".toList)
        = ["main".toList, "sub".toList, "data.txt".toList] := by
  refine ⟨?_, ?_⟩
  · exact (reference_path_rebinding.2.1 reTriv fsC5 1 (".".toList)
      ("sub/ops.json".toList) [] ["data.txt".toList]
      ["main".toList, "cfg.json".toList] [.readFile (".".toList) none false]
      (by decide)).trans (by decide)
  · exact (reference_path_rebinding.2.2.1 fsC5 (".".toList)
      ["main".toList, "sub".toList, "ops.json".toList] ("data.txt".toList)
      (by decide)).trans (by decide)

/-- Every path yielded while walking the kept subdirectories comes from some
subdirectory entry that passed the `dir_pattern` check. -/
theorem search_dirs_mem (dp fp : Option (Str → Bool)) :
    ∀ (l : List (Str × DirTree)) (p : FsPath) (q : FsPath),
      q ∈ search_dir.search_dirs dp fp l p →
      ∃ d t, (d, t) ∈ l ∧ keep_dir dp d = true
        ∧ q ∈ search_dir dp fp (p ++ [d]) t := by
  intro l
  induction l with
  | nil => intro p q h; simp [search_dir.search_dirs] at h
  | cons e rest ih =>
      intro p q h
      obtain ⟨d, t⟩ := e
      rw [search_dir.search_dirs.eq_def] at h
      simp only [List.mem_append] at h
      rcases h with h1 | h2
      · by_cases hk : keep_dir dp d = true
        · exact ⟨d, t, by simp, hk, by simpa [hk] using h1⟩
        · simp [hk] at h1
      · obtain ⟨d', t', hm, hk, hq⟩ := ih p q h2
        exact ⟨d', t', by simp [hm], hk, hq⟩

/-- Shape of the paths yielded by `_search_dir` under a `dir_pattern`: every
yielded path is the root, then a chain of directory names that all fully
match the pattern, then a file name. -/
theorem search_dir_shape (pat : Str → Bool) (fp : Option (Str → Bool)) :
    ∀ (n : Nat) (t : DirTree), sizeOf t ≤ n → ∀ (p q : FsPath),
      q ∈ search_dir (some pat) fp p t →
      ∃ ds f, q = p ++ ds ++ [f] ∧ ∀ d ∈ ds, pat d = true := by
  intro n
  induction n with
  | zero => intro t h; obtain ⟨dirs, files⟩ := t; simp at h
  | succ n ih =>
      intro t hsize p q hq
      obtain ⟨dirs, files⟩ := t
      rw [search_dir] at hq
      rcases List.mem_append.1 hq with h1 | h2
      · obtain ⟨f, _, rfl⟩ := List.mem_map.1 h1
        exact ⟨[], f, by simp, by simp⟩
      · obtain ⟨d, t', hm, hk, hq'⟩ := search_dirs_mem (some pat) fp dirs p q h2
        have hst : sizeOf t' ≤ n := by
          have h1 := List.sizeOf_lt_of_mem hm
          have h2 : sizeOf (DirTree.node dirs files)
              = 1 + sizeOf dirs + sizeOf files := by simp
          have h3 : sizeOf (d, t') = 1 + sizeOf d + sizeOf t' := by simp
          omega
        obtain ⟨ds, f, rfl, hds⟩ := ih t' hst (p ++ [d]) q hq'
        refine ⟨d :: ds, f, by simp, ?_⟩
        intro d' hd'
        rcases List.mem_cons.1 hd' with rfl | hmem
        · simpa [keep_dir] using hk
        · exact hds d' hmem

/-- C6.  With a `dir_pattern`, a subdirectory whose name does not fully match
is pruned before descent: no path that passes through that subdirectory —
whatever deeper directories or file name follow, and even if the file name
would match `file_pattern` — is ever yielded by `_search_dir`. -/
theorem dir_pattern_prunes_subtrees :
    ∀ (pat : Str → Bool) (fp : Option (Str → Bool)) (p : FsPath)
      (tree : DirTree) (d : Str) (rest : List Str) (f : Str),
      pat d = false →
      p ++ d :: (rest ++ [f]) ∉ search_dir (some pat) fp p tree := by
  intro pat fp p tree d rest f hpat hmem
  obtain ⟨ds, f', hq, hds⟩ :=
    search_dir_shape pat fp (sizeOf tree) tree (Nat.le_refl _) p _ hmem
  have h : d :: (rest ++ [f]) = ds ++ [f'] := by
    have := hq
    rw [List.append_assoc] at this
    exact List.append_cancel_left this
  cases ds with
  | nil =>
      have hlen := congrArg List.length h
      simp at hlen
  | cons d' ds' =>
      have hd : d = d' := by simpa using congrArg (fun l => l.headI) h
      subst hd
      have := hds d (by simp)
      rw [this] at hpat
      exact Bool.noConfusion hpat

/-- C6, witness: in a tree with subdirectory `skip` holding `keep.txt`, a
`dir_pattern` excluding `skip` means `/skip/keep.txt` is never yielded, with
no `file_pattern` restriction at all. -/
theorem dir_pattern_prunes_subtrees_witness :
    ["skip".toList, "keep.txt".toList]
      ∉ search_dir (some fun s => !(s == "skip".toList)) none [] treeC6 := by
  have h := dir_pattern_prunes_subtrees (fun s => !(s == "skip".toList)) none
    [] treeC6 ("skip".toList) [] ("keep.txt".toList) (by decide)
  simpa using h

/-- With `keepends=true` the pieces of `splitlines` concatenate back to the
input (every boundary character is retained on some piece). -/
theorem splitlinesAux_flatten :
    ∀ (acc t : Str), (py_splitlinesAux true acc t).flatten = acc.reverse ++ t := by
  intro acc t
  induction acc, t using py_splitlinesAux.induct true with
  | case1 acc h => simp_all [py_splitlinesAux, List.isEmpty_iff]
  | case2 acc h => simp_all [py_splitlinesAux, List.isEmpty_iff]
  | case3 acc rest ih => rw [py_splitlinesAux]; simp [ih]
  | case4 acc c rest hne hlb ih =>
      rw [py_splitlinesAux.eq_3 true acc c rest hne]
      simp [hlb, ih]
  | case5 acc c rest hne hlb ih =>
      rw [py_splitlinesAux.eq_3 true acc c rest hne]
      simp [hlb] at ih ⊢
      simp [ih]

/-- With `keepends=true` every emitted piece is nonempty. -/
theorem splitlinesAux_ne_nil :
    ∀ (acc t : Str) (l : Str), l ∈ py_splitlinesAux true acc t → l ≠ [] := by
  intro acc t
  induction acc, t using py_splitlinesAux.induct true with
  | case1 acc h => intro l hl; simp_all [py_splitlinesAux, List.isEmpty_iff]
  | case2 acc h =>
      intro l hl
      simp_all [py_splitlinesAux, List.isEmpty_iff]
  | case3 acc rest ih =>
      intro l hl
      rw [py_splitlinesAux] at hl
      rcases List.mem_cons.1 hl with rfl | hmem
      · simp
      · exact ih l hmem
  | case4 acc c rest hne hlb ih =>
      intro l hl
      rw [py_splitlinesAux.eq_3 true acc c rest hne] at hl
      simp only [hlb, if_pos] at hl
      rcases List.mem_cons.1 hl with rfl | hmem
      · simp
      · exact ih l hmem
  | case5 acc c rest hne hlb ih =>
      intro l hl
      rw [py_splitlinesAux.eq_3 true acc c rest hne] at hl
      simp [hlb] at hl
      exact ih l hl

/-- C7.  `SplitLinesOperation` on `"x\ny\nz"` yields exactly
`["x","y","z"]` with `keep_ends=false` and `["x\n","y\n","z"]` with
`keep_ends=true`; in general, with `keep_ends=true`, when the input does not
end in a line terminator the final emitted piece carries no trailing
terminator either. -/
theorem split_lines_behavior :
    process_op reTriv fsEmpty 0 (.splitLines false) ("x\ny\nz".toList) []
        = .ok ["x".toList, "y".toList, "z".toList] []
      ∧ process_op reTriv fsEmpty 0 (.splitLines true) ("x\ny\nz".toList) []
          = .ok ["x\n".toList, "y\n".toList, "z".toList] []
      ∧ (∀ (t l : Str), ends_with_break t = false →
          (py_splitlines true t).getLast? = some l →
          ends_with_break l = false) := by
  refine ⟨by decide, by decide, ?_⟩
  intro t l ht hl
  have hsplit : (py_splitlines true t).dropLast ++ [l] = py_splitlines true t :=
    List.dropLast_append_getLast? l hl
  have hlne : l ≠ [] := by
    refine splitlinesAux_ne_nil [] t l ?_
    rw [py_splitlines] at hsplit
    rw [← hsplit]
    simp
  have hflat : ((py_splitlines true t).dropLast).flatten ++ l = t := by
    have h1 := splitlinesAux_flatten [] t
    rw [← py_splitlines] at h1
    rw [← hsplit] at h1
    simpa using h1
  have hlast : t.getLast? = l.getLast? := by
    rw [← hflat]
    exact List.getLast?_append_of_ne_nil _ hlne
  rw [ends_with_break] at ht ⊢
  rw [← hlast]
  exact ht

/-- C7, witness: the general no-trailing-terminator part at the concrete
input `"x\ny\nz"` and its final piece `"z"`. -/
theorem split_lines_behavior_witness :
    ends_with_break ("z".toList) = false :=
  split_lines_behavior.2.2 ("x\ny\nz".toList) ("z".toList) (by decide) (by decide)

/-- Python `strip` is idempotent on a whole text: after one strip the first
character (if any) is not strippable, so a further left strip is the
identity, and right stripping is idempotent. -/
theorem py_strip_idem (p : Char → Bool) (l : Str) :
    py_strip p (py_strip p l) = py_strip p l := by
  have hz : ((l.dropWhile p).rdropWhile p).dropWhile p
      = (l.dropWhile p).rdropWhile p := by
    obtain ⟨t, ht⟩ := List.rdropWhile_prefix p (l.dropWhile p)
    cases hzc : (l.dropWhile p).rdropWhile p with
    | nil => simp
    | cons a z' =>
        rw [hzc] at ht
        have hy : l.dropWhile p = a :: (z' ++ t) := by rw [← ht]; simp
        have h0 : 0 < (l.dropWhile p).length := by rw [hy]; simp
        have hnp := List.dropWhile_get_zero_not p l h0
        rw [List.get_eq_getElem] at hnp
        simp only [hy, List.getElem_cons_zero] at hnp
        simp [List.dropWhile_cons, hnp]
  simp only [py_strip]
  rw [hz, List.rdropWhile_idempotent]

/-- C8, counterexample.  With `per_line=true`, `StripOperation` is not
idempotent: on `"a\n\n"` it produces `"a\n"` (the trailing empty line
survives as a separator), and applied again to `"a\n"` it produces `"a"`. -/
theorem strip_per_line_not_idempotent :
    process_op reTriv fsEmpty 0 (.strip none true) ("a\n\n".toList) []
        = .ok ["a\n".toList] []
      ∧ process_op reTriv fsEmpty 0 (.strip none true) ("a\n".toList) []
          = .ok ["a".toList] []
      ∧ "a\n".toList ≠ "a".toList := by
  exact ⟨by decide, by decide, by decide⟩

/-- C8, amended.  `StripOperation` with `per_line=false` yields exactly the
stripped text, and stripping is idempotent for every character predicate —
so the operation applied to its own output returns that output unchanged.
With `per_line=true` idempotence fails in general (a second application can
collapse a trailing empty or all-strippable line, see the counterexample). -/
theorem strip_idempotent_whole_text :
    (∀ re fs fuel chars t p,
        process_op re fs fuel (.strip chars false) t p
          = .ok [py_strip (strip_pred chars) t] [])
      ∧ (∀ (p : Char → Bool) (t : Str),
          py_strip p (py_strip p t) = py_strip p t) :=
  ⟨fun _ _ _ _ _ _ => by simp [process_op], py_strip_idem⟩

/-- A per-line transform that cannot run out of fuel maps over all lines. -/
theorem mapLines_some (f : Str → Str) :
    ∀ ls, mapLines (fun l => some (f l)) ls = some (ls.map f) := by
  intro ls
  induction ls with
  | nil => rfl
  | cons l ls ih => simp [mapLines, ih]

/-- `"a".replace("a", "aa")` doubles a run of `a`s (worker version, with
enough fuel). -/
theorem py_replaceGo_double :
    ∀ (fuel n : Nat), n ≤ fuel →
      py_replaceGo ['a'] ['a', 'a'] fuel (List.replicate n 'a')
        = List.replicate (2 * n) 'a' := by
  intro fuel
  induction fuel with
  | zero =>
      intro n hn
      have : n = 0 := Nat.le_zero.1 hn
      subst this
      rfl
  | succ fuel ih =>
      intro n hn
      cases n with
      | zero => rfl
      | succ n =>
          rw [List.replicate_succ, py_replaceGo]
          have hpre : List.isPrefixOf ['a'] ('a' :: List.replicate n 'a') = true := by
            simp [List.isPrefixOf]
          rw [if_pos hpre]
          simp only [List.length_cons, List.length_nil, List.drop_succ_cons,
            List.drop_zero]
          rw [ih n (Nat.le_of_succ_le_succ hn)]
          have h2 : 2 * (n + 1) = (2 * n + 1) + 1 := by omega
          rw [h2, List.replicate_succ, List.replicate_succ]
          rfl

/-- `str.replace("a", "aa")` doubles a run of `a`s. -/
theorem py_replace_double (n : Nat) :
    py_replace ['a'] ['a', 'a'] (List.replicate n 'a')
      = List.replicate (2 * n) 'a' := by
  rw [py_replace]
  simp only [List.isEmpty_iff]
  rw [if_neg (by simp)]
  exact py_replaceGo_double _ n (by simp)

/-- The `repeat=true` loop never converges for the growing rule `a → aa` on
a nonempty run of `a`s, whatever the fuel: each application strictly grows
the text. -/
theorem applyReplaceRepeat_diverges :
    ∀ (fuel n : Nat), 0 < n →
      applyReplaceRepeat (py_replace ['a'] ['a', 'a']) fuel
        (List.replicate n 'a') = none := by
  intro fuel
  induction fuel with
  | zero => intro n _; rfl
  | succ fuel ih =>
      intro n hn
      rw [applyReplaceRepeat]
      have hsub := py_replace_double n
      have hne : py_replace ['a'] ['a', 'a'] (List.replicate n 'a')
          ≠ List.replicate n 'a' := by
        rw [hsub]
        intro h
        have := congrArg List.length h
        simp at this
        omega
      rw [if_neg hne, hsub]
      exact ih (2 * n) (by omega)

/-- C9, counterexample.  A `ReplaceOperation` with `repeat=true` whose rule
grows the text (`old="a"`, `new="aa"`) never reaches a fixed point, so on
input `"a"` the operation never yields any output — however the loop is
bounded, no single output string is produced. -/
theorem replace_repeat_divergent_no_output :
    ¬ ∃ (fuel : Nat) (s : Str),
      process_op reTriv fsEmpty fuel (.replace false ['a'] ['a', 'a'] true false)
        (['a'] : Str) [] = .ok [s] [] := by
  rintro ⟨fuel, s, h⟩
  have hdiv : applyReplaceRepeat (py_replace ['a'] ['a', 'a']) fuel ['a'] = none := by
    have := applyReplaceRepeat_diverges fuel 1 (by omega)
    simpa using this
  simp [process_op, hdiv] at h

/-- C9, amended.  Whenever their evaluation completes, `ReplaceOperation`,
`StripOperation` and `RightStripOperation` yield exactly one output string
and no warning, for every input text, path context and flag combination; for
`ReplaceOperation` with `repeat=false` and for the two strip operations this
is unconditional, while a `repeat=true` rule that never reaches a fixed
point produces no output at all (see the counterexample). -/
theorem single_output_when_loop_terminates :
    (∀ re fs fuel regexF old new rep per_line t p out w,
        process_op re fs fuel (.replace regexF old new rep per_line) t p
          = .ok out w → ∃ s, out = [s] ∧ w = [])
      ∧ (∀ re fs fuel regexF old new per_line t p,
          ∃ s, process_op re fs fuel (.replace regexF old new false per_line) t p
            = .ok [s] [])
      ∧ (∀ re fs fuel chars per_line t p,
          ∃ s, process_op re fs fuel (.strip chars per_line) t p = .ok [s] [])
      ∧ (∀ re fs fuel chars per_line t p,
          ∃ s, process_op re fs fuel (.rstrip chars per_line) t p = .ok [s] []) := by
  refine ⟨?_, ?_, ?_, ?_⟩
  · intro re fs fuel regexF old new rep per_line t p out w h
    simp only [process_op] at h
    cases per_line with
    | false =>
        simp only [Bool.false_eq_true, if_false] at h
        split at h
        · injection h with h1 h2
          exact ⟨_, h1.symm, h2.symm⟩
        · exact absurd h (by simp)
    | true =>
        simp only [if_true] at h
        split at h
        · injection h with h1 h2
          exact ⟨_, h1.symm, h2.symm⟩
        · exact absurd h (by simp)
  · intro re fs fuel regexF old new per_line t p
    cases per_line with
    | false =>
        exact ⟨if regexF then re.sub old new t else py_replace old new t,
          by simp [process_op]⟩
    | true =>
        exact ⟨joinLines ((py_splitlines false t).map
            (fun l => if regexF then re.sub old new l else py_replace old new l)),
          by simp [process_op, mapLines_some]⟩
  · intro re fs fuel chars per_line t p
    cases per_line with
    | false => exact ⟨py_strip (strip_pred chars) t, by simp [process_op]⟩
    | true =>
        exact ⟨joinLines ((py_splitlines false t).map (py_strip (strip_pred chars))),
          by simp [process_op]⟩
  · intro re fs fuel chars per_line t p
    cases per_line with
    | false => exact ⟨py_rstrip (strip_pred chars) t, by simp [process_op]⟩
    | true =>
        exact ⟨joinLines ((py_splitlines false t).map (py_rstrip (strip_pred chars))),
          by simp [process_op]⟩

/-- C9, witness: the completed-evaluation part at the terminating concrete
repeat rule `aa → a` on `"aaaa"`. -/
theorem single_output_when_loop_terminates_witness :
    ∃ s : Str, ["a".toList] = [s] ∧ ([] : List FsPath) = [] :=
  single_output_when_loop_terminates.1 reTriv fsEmpty 3 false ("aa".toList)
    ("a".toList) true false ("aaaa".toList) [] ["a".toList] [] (by decide)

/-- Rewriting terminators preserves nonemptiness. -/
theorem spec_replace_terminators_ne_nil :
    ∀ t : Str, t ≠ [] → spec_replace_terminators t ≠ [] := by
  intro t
  induction t using spec_replace_terminators.induct with
  | case1 => intro h; exact absurd rfl h
  | case2 rest ih => intro h; simp [spec_replace_terminators]
  | case3 c rest hne ih =>
      intro h
      rw [spec_replace_terminators.eq_3 c rest hne]
      simp

/-- Dropping one trailing newline commutes with a nonempty-tail cons. -/
theorem dropTrailingNewline_cons (c : Char) (x : Str) (hx : x ≠ []) :
    dropTrailingNewline (c :: x) = c :: dropTrailingNewline x := by
  exact dropTrailingNewline.eq_3 c x (fun _ h => absurd h hx)

/-- Dropping one trailing newline from a single non-newline character. -/
theorem dropTrailingNewline_single (c : Char) (hc : c ≠ '\n') :
    dropTrailingNewline [c] = [c] := by
  rw [dropTrailingNewline.eq_3 c [] (fun h _ => absurd h hc)]
  rfl

/-- Joining a piece onto a nonempty tail inserts one `\n` separator. -/
theorem joinLines_cons (l : Str) (ls : List Str) (h : ls ≠ []) :
    joinLines (l :: ls) = l ++ '\n' :: joinLines ls := by
  cases ls with
  | nil => exact absurd rfl h
  | cons l' ls' => rfl

/-- With `keepends=false` the worker emits at least one piece whenever the
accumulator or the remaining input is nonempty. -/
theorem splitlinesAux_false_ne_nil :
    ∀ (acc t : Str), acc ≠ [] ∨ t ≠ [] → py_splitlinesAux false acc t ≠ [] := by
  intro acc t
  induction acc, t using py_splitlinesAux.induct false with
  | case1 acc h =>
      intro hor
      rcases hor with ha | ht
      · exact absurd (List.isEmpty_iff.1 h) ha
      · exact absurd rfl ht
  | case2 acc h => intro _; simp [py_splitlinesAux, h]
  | case3 acc rest ih => intro _; rw [py_splitlinesAux]; simp
  | case4 acc c rest hne hlb ih =>
      intro _
      rw [py_splitlinesAux.eq_3 false acc c rest hne]
      simp [hlb]
  | case5 acc c rest hne hlb ih =>
      intro _
      rw [py_splitlinesAux.eq_3 false acc c rest hne]
      simp only [hlb, if_neg, Bool.false_eq_true]
      exact ih (Or.inl (by simp))

/-- Joining the `keepends=false` pieces with `"\n"` rewrites every line
terminator of the input to `"\n"` and removes one trailing terminator. -/
theorem joinLines_splitlines_norm :
    ∀ (acc t : Str),
      joinLines (py_splitlinesAux false acc t)
        = acc.reverse ++ dropTrailingNewline (spec_replace_terminators t) := by
  intro acc t
  induction acc, t using py_splitlinesAux.induct false with
  | case1 acc h =>
      have ha := List.isEmpty_iff.1 h
      subst ha
      rfl
  | case2 acc h =>
      rw [py_splitlinesAux]
      simp only [List.isEmpty_iff] at h
      rw [if_neg (by simpa using h)]
      simp [joinLines, spec_replace_terminators, dropTrailingNewline]
  | case3 acc rest ih =>
      rw [py_splitlinesAux, spec_replace_terminators]
      by_cases hr : rest = []
      · subst hr
        simp [py_splitlinesAux, joinLines, spec_replace_terminators,
          dropTrailingNewline]
      · have hp := splitlinesAux_false_ne_nil [] rest (Or.inr hr)
        rw [joinLines_cons _ _ hp, ih,
          dropTrailingNewline_cons _ _ (spec_replace_terminators_ne_nil rest hr)]
        simp
  | case4 acc c rest hne hlb ih =>
      rw [py_splitlinesAux.eq_3 false acc c rest hne,
        spec_replace_terminators.eq_3 c rest hne]
      simp only [hlb, if_pos]
      by_cases hr : rest = []
      · subst hr
        simp [py_splitlinesAux, joinLines, spec_replace_terminators,
          dropTrailingNewline]
      · have hp := splitlinesAux_false_ne_nil [] rest (Or.inr hr)
        rw [joinLines_cons _ _ hp, ih,
          dropTrailingNewline_cons _ _ (spec_replace_terminators_ne_nil rest hr)]
        simp
  | case5 acc c rest hne hlb ih =>
      rw [py_splitlinesAux.eq_3 false acc c rest hne,
        spec_replace_terminators.eq_3 c rest hne, if_neg hlb, if_neg hlb]
      have hcn : c ≠ '\n' := by
        intro hc
        subst hc
        exact hlb (by decide)
      by_cases hr : rest = []
      · subst hr
        rw [ih]
        simp [spec_replace_terminators, dropTrailingNewline_single c hcn,
          dropTrailingNewline]
      · rw [ih,
          dropTrailingNewline_cons _ _ (spec_replace_terminators_ne_nil rest hr)]
        simp

/-- C10.  Each of `ReplaceOperation`, `RightStripOperation` and
`StripOperation` with `per_line=true` rebuilds its single output by joining
the `splitlines` pieces with `"\n"`; consequently every line terminator of
the input (`\r\n`, `\r`, and the other recognized terminators) is replaced
by `"\n"` and one trailing terminator is removed — e.g. a per-line strip,
rstrip or (vacuous) replace of `"a\r\nb\r\n"` yields `"a\nb"`.  For
`repeat=true` the same join-of-lines shape holds whenever the loop
completes. -/
theorem per_line_rebuild_normalizes :
    (∀ re fs fuel regexF old new t p,
        process_op re fs fuel (.replace regexF old new false true) t p
          = .ok [joinLines ((py_splitlines false t).map
              (fun l => if regexF then re.sub old new l else py_replace old new l))] [])
      ∧ (∀ re fs fuel regexF old new t p out w,
          process_op re fs fuel (.replace regexF old new true true) t p
            = .ok out w → ∃ ls, out = [joinLines ls])
      ∧ (∀ re fs fuel chars t p,
          process_op re fs fuel (.rstrip chars true) t p
            = .ok [joinLines ((py_splitlines false t).map
                (py_rstrip (strip_pred chars)))] [])
      ∧ (∀ re fs fuel chars t p,
          process_op re fs fuel (.strip chars true) t p
            = .ok [joinLines ((py_splitlines false t).map
                (py_strip (strip_pred chars)))] [])
      ∧ (∀ t : Str, joinLines (py_splitlines false t)
          = dropTrailingNewline (spec_replace_terminators t))
      ∧ process_op reTriv fsEmpty 0 (.strip none true) ("a\r\nb\r\n".toList) []
          = .ok ["a\nb".toList] []
      ∧ process_op reTriv fsEmpty 0 (.rstrip none true) ("a\r\nb\r\n".toList) []
          = .ok ["a\nb".toList] []
      ∧ process_op reTriv fsEmpty 1 (.replace false ['q'] ['z'] false true)
          ("a\r\nb\r\n".toList) [] = .ok ["a\nb".toList] [] := by
  refine ⟨?_, ?_, ?_, ?_, ?_, by decide, by decide, by decide⟩
  · intro re fs fuel regexF old new t p
    simp [process_op, mapLines_some]
  · intro re fs fuel regexF old new t p out w h
    simp only [process_op] at h
    split at h
    · split at h
      · injection h with h1 h2
        exact ⟨_, h1.symm⟩
      · exact absurd h (by simp)
    · simp_all
  · intro re fs fuel chars t p
    simp [process_op]
  · intro re fs fuel chars t p
    simp [process_op]
  · intro t
    have h := joinLines_splitlines_norm [] t
    simpa [py_splitlines] using h

/-- C10, witness: the `repeat=true` join-of-lines part at a concrete
terminating per-line repeat rule. -/
theorem per_line_rebuild_normalizes_witness :
    ∃ ls, (["a\na".toList] : List Str) = [joinLines ls] :=
  per_line_rebuild_normalizes.2.1 reTriv fsEmpty 4 false ("aa".toList)
    ("a".toList) ("aaaa\r\naa\r\n".toList) [] ["a\na".toList] [] (by decide)

end SpargelLM
